import Mathlib

/-!
# ROIAlign layer: the cubic convolution kernel and the layer's blob counts

A verification development for `include/caffe/layers/roi_align_layer.hpp`.

The header defines the device function `cubic_coeff_gpu`, the one-dimensional
cubic convolution kernel used by the bicubic resampling path, and the blob-count
getters of `ROIAlignLayer`.  The function is written over `double`; here it is
embedded over an arbitrary linearly ordered field `K` (instantiate `K` with `ℚ`
to evaluate it, with `ℝ` for the real-number reading), so every statement below
is a statement of exact arithmetic, not of IEEE rounding.
-/

namespace caffe

section Kernel

variable {K : Type*} [LinearOrderedField K]

/-- The function `cubic_coeff_gpu` of the header, statement by statement: the
argument is first replaced by `(x>0) ? x : -x`, then the two polynomial
branches are tried in order, and `0` is returned when neither guard holds. -/
def cubic_coeff_gpu (x : K) : K :=
  let x := if x > 0 then x else -x
  if x < 1 then
    1 - 2 * x * x + x * x * x
  else if x < 2 then
    4 - 8 * x + 5 * x * x - x * x * x
  else
    0

/-- The four cells `c - 1, c, c + 1, c + 2` that the bicubic sample visits
along one axis, `c` being the floor of the sample coordinate. -/
def neighbours (c : ℤ) : List ℤ := [c - 1, c, c + 1, c + 2]

/-- Modelled from the spec: the body of `ROIAlignLayer::ResampleCubic` is not
among the sources (the header only declares it).  The spec's `SampleBicubic`
gives the rule: with `x0 = floor x` and `y0 = floor y`, the neighbours
`x0-1..x0+2`, `y0-1..y0+2` are visited; a neighbour inside the
`nWidth x nHeight` grid contributes
`cubic_coeff (x - xi) * cubic_coeff (y - yj) * V(yj, xi)`, a neighbour outside
the grid is excluded, and the remaining weights are not renormalised.  The
coefficient function is the header's `cubic_coeff_gpu`; `pdfValue` is the
channel plane, row-major with the width varying fastest, so `V(yj, xi)` is read
at offset `yj * nWidth + xi`.  The bookkeeping arguments `pool_index`,
`argmax_data` and `w_data` do not enter the returned value and are left out. -/
def ResampleCubic [FloorRing K] (x y : K) (pdfValue : ℤ → K) (nWidth nHeight : ℤ) : K :=
  let x0 := ⌊x⌋
  let y0 := ⌊y⌋
  ((neighbours y0).map fun yj =>
    ((neighbours x0).map fun xi =>
      if 0 ≤ xi ∧ xi < nWidth ∧ 0 ≤ yj ∧ yj < nHeight then
        cubic_coeff_gpu (x - (xi : K)) * cubic_coeff_gpu (y - (yj : K)) *
          pdfValue (yj * nWidth + xi)
      else
        0).sum).sum

/-- The sum of the one-dimensional coefficients of the neighbours of `x` that
lie inside a grid axis of `n` cells: the weight the bicubic sample keeps along
that axis once the out-of-grid neighbours are excluded. -/
def axisWeight [FloorRing K] (x : K) (n : ℤ) : K :=
  ((neighbours ⌊x⌋).map fun i =>
    if 0 ≤ i ∧ i < n then cubic_coeff_gpu (x - (i : K)) else 0).sum

/-- A sample coordinate along an axis of `n` cells at which no weight is lost:
it is an integer, or all four of its neighbours are cells of the axis. -/
def fullWeight [FloorRing K] (x : K) (n : ℤ) : Prop :=
  x = (⌊x⌋ : K) ∨ (1 ≤ x ∧ x < (n : K) - 2)

end Kernel

section Blobs

/-- The getter `ROIAlignLayer::MinBottomBlobs`. -/
def MinBottomBlobs : Int := 2

/-- The getter `ROIAlignLayer::MaxBottomBlobs`. -/
def MaxBottomBlobs : Int := 2

/-- The getter `ROIAlignLayer::MinTopBlobs`. -/
def MinTopBlobs : Int := 1

/-- The getter `ROIAlignLayer::MaxTopBlobs`. -/
def MaxTopBlobs : Int := 1

/-- Modelled from the spec: the check of a layer's blob counts lives in the
base class `Layer`, which is not among the sources.  A number of bottom blobs
is admissible when it lies between the minimum and the maximum the layer
declares (the layer "takes 2 inputs"). -/
def admissibleBottomCount (n : ℕ) : Bool :=
  decide (MinBottomBlobs ≤ (n : Int)) && decide ((n : Int) ≤ MaxBottomBlobs)

/-- Modelled from the spec: as `admissibleBottomCount`, for the top blobs (the
layer "produces 1 output"). -/
def admissibleTopCount (n : ℕ) : Bool :=
  decide (MinTopBlobs ≤ (n : Int)) && decide ((n : Int) ≤ MaxTopBlobs)

end Blobs

section KernelLemmas

variable {K : Type*} [LinearOrderedField K]

/-- The first statement of `cubic_coeff_gpu` computes the absolute value. -/
theorem reflect_eq_abs (x : K) : (if x > 0 then x else -x) = |x| := by
  split_ifs with h
  · exact (abs_of_pos h).symm
  · exact (abs_of_nonpos (not_lt.mp h)).symm

/-- The kernel as a function of `|x|`. -/
theorem cubic_coeff_gpu_abs (x : K) :
    cubic_coeff_gpu x =
      if |x| < 1 then 1 - 2 * |x| * |x| + |x| * |x| * |x|
      else if |x| < 2 then 4 - 8 * |x| + 5 * |x| * |x| - |x| * |x| * |x|
      else 0 := by
  simp only [cubic_coeff_gpu, reflect_eq_abs]

/-- First branch of the kernel. -/
theorem cubic_coeff_gpu_inner (x : K) (h : |x| < 1) :
    cubic_coeff_gpu x = 1 - 2 * |x| * |x| + |x| * |x| * |x| := by
  rw [cubic_coeff_gpu_abs, if_pos h]

/-- Second branch of the kernel. -/
theorem cubic_coeff_gpu_outer (x : K) (h1 : 1 ≤ |x|) (h2 : |x| < 2) :
    cubic_coeff_gpu x = 4 - 8 * |x| + 5 * |x| * |x| - |x| * |x| * |x| := by
  rw [cubic_coeff_gpu_abs, if_neg (not_lt.mpr h1), if_pos h2]

/-- Fall-through of the kernel. -/
theorem cubic_coeff_gpu_far (x : K) (h : 2 ≤ |x|) : cubic_coeff_gpu x = 0 := by
  have h1 : ¬ |x| < 1 := not_lt.mpr (le_trans (by norm_num) h)
  rw [cubic_coeff_gpu_abs, if_neg h1, if_neg (not_lt.mpr h)]

/-- The kernel at an integer other than zero. -/
theorem cubic_coeff_gpu_int (n : ℤ) (hn : n ≠ 0) : cubic_coeff_gpu (n : K) = 0 := by
  have habs : |(n : K)| = ((|n| : ℤ) : K) := (Int.cast_abs).symm
  have h1 : (1 : ℤ) ≤ |n| := Int.one_le_abs hn
  rcases eq_or_lt_of_le h1 with h | h
  · have hone : |(n : K)| = 1 := by rw [habs, ← h]; simp
    rw [cubic_coeff_gpu_outer (n : K) (by rw [hone]) (by rw [hone]; norm_num), hone]
    norm_num
  · have h2 : (2 : ℤ) ≤ |n| := h
    apply cubic_coeff_gpu_far
    rw [habs]
    exact_mod_cast h2

/-- The kernel at zero. -/
theorem cubic_coeff_gpu_zero : cubic_coeff_gpu (0 : K) = 1 := by
  rw [cubic_coeff_gpu_inner (0 : K) (by simp)]
  simp

/-- Range of the first branch: a value in `[0, 1]` for `0 ≤ a ≤ 1`. -/
theorem inner_poly_range (a : K) (h0 : 0 ≤ a) (h1 : a ≤ 1) :
    0 ≤ 1 - 2 * a * a + a * a * a ∧ 1 - 2 * a * a + a * a * a ≤ 1 := by
  constructor
  · have e : 1 - 2 * a * a + a * a * a = (1 - a) * (1 + a * (1 - a)) := by ring
    rw [e]
    have : 0 ≤ a * (1 - a) := mul_nonneg h0 (by linarith)
    exact mul_nonneg (by linarith) (by linarith)
  · have e : 1 - (1 - 2 * a * a + a * a * a) = a * a * (2 - a) := by ring
    have : 0 ≤ a * a * (2 - a) := mul_nonneg (mul_nonneg h0 h0) (by linarith)
    linarith

/-- Range of the second branch: a value in `[-4/27, 0]` for `1 ≤ a ≤ 2`,
strictly negative strictly inside. -/
theorem outer_poly_range (a : K) (h1 : 1 ≤ a) (h2 : a ≤ 2) :
    -4 / 27 ≤ 4 - 8 * a + 5 * a * a - a * a * a ∧
      4 - 8 * a + 5 * a * a - a * a * a ≤ 0 ∧
      (1 < a → a < 2 → 4 - 8 * a + 5 * a * a - a * a * a < 0) := by
  have e : 4 - 8 * a + 5 * a * a - a * a * a = -((a - 1) * ((a - 2) * (a - 2))) := by ring
  have e2 : 4 - 8 * a + 5 * a * a - a * a * a + 4 / 27 =
      (a - 4 / 3) * (a - 4 / 3) * (7 / 3 - a) := by ring
  refine ⟨?_, ?_, ?_⟩
  · have : 0 ≤ (a - 4 / 3) * (a - 4 / 3) * (7 / 3 - a) :=
      mul_nonneg (mul_self_nonneg _) (by linarith)
    linarith
  · rw [e]
    have : 0 ≤ (a - 1) * ((a - 2) * (a - 2)) :=
      mul_nonneg (by linarith) (mul_self_nonneg _)
    linarith
  · intro h1s h2s
    rw [e]
    have : 0 < (a - 1) * ((a - 2) * (a - 2)) :=
      mul_pos (by linarith) (mul_pos_of_neg_of_neg (by linarith) (by linarith))
    linarith

/-- The kernel one cell to the left of the base cell, at fractional offset `f`. -/
theorem cubic_coeff_gpu_frac_add_one (f : K) (h0 : 0 ≤ f) (h1 : f < 1) :
    cubic_coeff_gpu (f + 1) = -f + 2 * f * f - f * f * f := by
  have habs : |f + 1| = f + 1 := abs_of_nonneg (by linarith)
  rw [cubic_coeff_gpu_outer (f + 1) (by rw [habs]; linarith) (by rw [habs]; linarith), habs]
  ring

/-- The kernel at the base cell, at fractional offset `f`. -/
theorem cubic_coeff_gpu_frac (f : K) (h0 : 0 ≤ f) (h1 : f < 1) :
    cubic_coeff_gpu f = 1 - 2 * f * f + f * f * f := by
  have habs : |f| = f := abs_of_nonneg h0
  rw [cubic_coeff_gpu_inner f (by rw [habs]; exact h1), habs]

/-- The kernel one cell to the right of the base cell, at fractional offset `f`. -/
theorem cubic_coeff_gpu_frac_sub_one (f : K) (h0 : 0 ≤ f) (h1 : f < 1) :
    cubic_coeff_gpu (f - 1) = f + f * f - f * f * f := by
  have habs : |f - 1| = 1 - f := by rw [abs_of_nonpos (by linarith)]; ring
  rcases eq_or_lt_of_le h0 with h | h
  · subst h
    rw [cubic_coeff_gpu_outer _ (by rw [habs]; norm_num) (by rw [habs]; norm_num), habs]
    norm_num
  · rw [cubic_coeff_gpu_inner _ (by rw [habs]; linarith), habs]
    ring

/-- The kernel two cells to the right of the base cell, at fractional offset `f`. -/
theorem cubic_coeff_gpu_frac_sub_two (f : K) (h0 : 0 ≤ f) (h1 : f < 1) :
    cubic_coeff_gpu (f - 2) = -(f * f) + f * f * f := by
  have habs : |f - 2| = 2 - f := by rw [abs_of_nonpos (by linarith)]; ring
  rcases eq_or_lt_of_le h0 with h | h
  · subst h
    rw [cubic_coeff_gpu_far _ (by rw [habs]; norm_num)]
    norm_num
  · rw [cubic_coeff_gpu_outer _ (by rw [habs]; linarith) (by rw [habs]; linarith), habs]
    ring

/-- The four one-dimensional coefficients of a fractional offset sum to one. -/
theorem cubic_coeff_gpu_four_sum (f : K) (h0 : 0 ≤ f) (h1 : f < 1) :
    cubic_coeff_gpu (f + 1) + cubic_coeff_gpu f + cubic_coeff_gpu (f - 1) +
      cubic_coeff_gpu (f - 2) = 1 := by
  rw [cubic_coeff_gpu_frac_add_one f h0 h1, cubic_coeff_gpu_frac f h0 h1,
    cubic_coeff_gpu_frac_sub_one f h0 h1, cubic_coeff_gpu_frac_sub_two f h0 h1]
  ring

/-- The one-dimensional coefficients summed over the offsets `-1, 0, 1, 2`. -/
theorem cubic_coeff_gpu_offset_sum (f : K) (h0 : 0 ≤ f) (h1 : f < 1) :
    (∑ i in ({-1, 0, 1, 2} : Finset ℤ), cubic_coeff_gpu (f - (i : K))) = 1 := by
  have e : (∑ i in ({-1, 0, 1, 2} : Finset ℤ), cubic_coeff_gpu (f - (i : K))) =
      cubic_coeff_gpu (f + 1) + cubic_coeff_gpu f + cubic_coeff_gpu (f - 1) +
        cubic_coeff_gpu (f - 2) := by
    rw [Finset.sum_insert (by decide), Finset.sum_insert (by decide),
      Finset.sum_insert (by decide), Finset.sum_singleton]
    simp only [Int.cast_neg, Int.cast_one, Int.cast_zero, Int.cast_ofNat, sub_neg_eq_add,
      sub_zero]
    ring
  rw [e, cubic_coeff_gpu_four_sum f h0 h1]

/-- A cell with a non-zero coefficient is one of the four neighbours. -/
theorem cubic_coeff_gpu_support [FloorRing K] (x : K) (i : ℤ)
    (h : cubic_coeff_gpu (x - (i : K)) ≠ 0) : ⌊x⌋ - 1 ≤ i ∧ i ≤ ⌊x⌋ + 2 := by
  have hlt : |x - (i : K)| < 2 := by
    by_contra hge
    exact h (cubic_coeff_gpu_far _ (not_lt.mp hge))
  obtain ⟨hlo, hhi⟩ := abs_lt.mp hlt
  constructor
  · have h1 : x < ((i + 2 : ℤ) : K) := by push_cast; linarith
    have := Int.floor_lt.mpr h1
    omega
  · have h1 : ((i - 2 : ℤ) : K) ≤ x := by push_cast; linarith
    have := Int.le_floor.mpr h1
    omega

end KernelLemmas

section SampleLemmas

variable {K : Type*} [LinearOrderedField K] [FloorRing K]

/-- On a constant plane the bicubic sample factors into the constant and the
weights kept along the two axes. -/
theorem ResampleCubic_const (x y k : K) (pdfValue : ℤ → K) (W H : ℤ)
    (hconst : ∀ j i : ℤ, 0 ≤ j → j < H → 0 ≤ i → i < W → pdfValue (j * W + i) = k) :
    ResampleCubic x y pdfValue W H = k * (axisWeight x W * axisWeight y H) := by
  have term : ∀ i j : ℤ,
      (if 0 ≤ i ∧ i < W ∧ 0 ≤ j ∧ j < H then
          cubic_coeff_gpu (x - (i : K)) * cubic_coeff_gpu (y - (j : K)) * pdfValue (j * W + i)
        else 0) =
        k * ((if 0 ≤ i ∧ i < W then cubic_coeff_gpu (x - (i : K)) else 0) *
          (if 0 ≤ j ∧ j < H then cubic_coeff_gpu (y - (j : K)) else 0)) := by
    intro i j
    by_cases hi : 0 ≤ i ∧ i < W
    · by_cases hj : 0 ≤ j ∧ j < H
      · rw [if_pos ⟨hi.1, hi.2, hj.1, hj.2⟩, if_pos hi, if_pos hj,
          hconst j i hj.1 hj.2 hi.1 hi.2]
        ring
      · rw [if_neg (fun h => hj ⟨h.2.2.1, h.2.2.2⟩), if_neg hj]
        ring
    · rw [if_neg (fun h => hi ⟨h.1, h.2.1⟩), if_neg hi]
      ring
  simp only [ResampleCubic, axisWeight, neighbours, List.map_cons, List.map_nil,
    List.sum_cons, List.sum_nil, term]
  ring

/-- The weight kept along an axis, in terms of the fractional offset. -/
theorem axisWeight_eq (x : K) (n : ℤ) :
    axisWeight x n =
      (if 0 ≤ ⌊x⌋ - 1 ∧ ⌊x⌋ - 1 < n then cubic_coeff_gpu (Int.fract x + 1) else 0) +
        (if 0 ≤ ⌊x⌋ ∧ ⌊x⌋ < n then cubic_coeff_gpu (Int.fract x) else 0) +
        (if 0 ≤ ⌊x⌋ + 1 ∧ ⌊x⌋ + 1 < n then cubic_coeff_gpu (Int.fract x - 1) else 0) +
        (if 0 ≤ ⌊x⌋ + 2 ∧ ⌊x⌋ + 2 < n then cubic_coeff_gpu (Int.fract x - 2) else 0) := by
  have e1 : x - ((⌊x⌋ - 1 : ℤ) : K) = Int.fract x + 1 := by
    rw [← Int.self_sub_floor]; push_cast; ring
  have e2 : x - ((⌊x⌋ : ℤ) : K) = Int.fract x := Int.self_sub_floor x
  have e3 : x - ((⌊x⌋ + 1 : ℤ) : K) = Int.fract x - 1 := by
    rw [← Int.self_sub_floor]; push_cast; ring
  have e4 : x - ((⌊x⌋ + 2 : ℤ) : K) = Int.fract x - 2 := by
    rw [← Int.self_sub_floor]; push_cast; ring
  simp only [axisWeight, neighbours, List.map_cons, List.map_nil, List.sum_cons,
    List.sum_nil, e1, e2, e3, e4]
  ring

/-- Inside the axis the kept weight is at least one, and it is exactly one
precisely at the coordinates of full weight. -/
theorem axisWeight_in_range (x : K) (n : ℤ) (h0 : 0 ≤ x) (h1 : x ≤ (n : K) - 1) :
    1 ≤ axisWeight x n ∧ (axisWeight x n = 1 ↔ fullWeight x n) := by
  have hf0 : 0 ≤ Int.fract x := Int.fract_nonneg x
  have hf1 : Int.fract x < 1 := Int.fract_lt_one x
  have hfx : x = (⌊x⌋ : K) + Int.fract x := (Int.floor_add_fract x).symm
  have hx0 : 0 ≤ ⌊x⌋ := Int.floor_nonneg.mpr h0
  have hxn : ⌊x⌋ < n := by
    have h : (⌊x⌋ : K) ≤ ((n - 1 : ℤ) : K) := by
      push_cast
      exact le_trans (Int.floor_le x) h1
    have := Int.cast_le.mp h
    omega
  have hone : (1 ≤ x) ↔ 1 ≤ ⌊x⌋ := by
    rw [Int.le_floor]; simp
  have htwo : (x < (n : K) - 2) ↔ ⌊x⌋ + 2 < n := by
    have : ⌊x⌋ < n - 2 ↔ x < ((n - 2 : ℤ) : K) := Int.floor_lt
    push_cast at this
    rw [← this]
    omega
  have c1 : (0 ≤ ⌊x⌋ - 1 ∧ ⌊x⌋ - 1 < n) ↔ 1 ≤ ⌊x⌋ :=
    ⟨fun h => by omega, fun h => ⟨by omega, by omega⟩⟩
  have c2 : 0 ≤ ⌊x⌋ ∧ ⌊x⌋ < n := ⟨hx0, hxn⟩
  have c4 : (0 ≤ ⌊x⌋ + 2 ∧ ⌊x⌋ + 2 < n) ↔ ⌊x⌋ + 2 < n :=
    ⟨fun h => h.2, fun h => ⟨by omega, h⟩⟩
  rw [axisWeight_eq, if_pos c2, cubic_coeff_gpu_frac_add_one _ hf0 hf1,
    cubic_coeff_gpu_frac _ hf0 hf1, cubic_coeff_gpu_frac_sub_one _ hf0 hf1,
    cubic_coeff_gpu_frac_sub_two _ hf0 hf1]
  unfold fullWeight
  simp only [c1, c4]
  rw [hone, htwo]
  generalize Int.fract x = f at hf0 hf1 hfx
  rcases eq_or_lt_of_le hf0 with hz | hpos
  · subst hz
    have hint : x = (⌊x⌋ : K) := by rw [add_zero] at hfx; exact hfx
    refine ⟨by norm_num, fun _ => Or.inl hint, fun _ => by norm_num⟩
  · have hnot : ¬ x = (⌊x⌋ : K) := by
      intro h
      rw [← h] at hfx
      linarith
    have c3 : 0 ≤ ⌊x⌋ + 1 ∧ ⌊x⌋ + 1 < n := by
      have h : (⌊x⌋ : K) < ((n - 1 : ℤ) : K) := by
        push_cast
        linarith
      have := Int.cast_lt.mp h
      exact ⟨by omega, by omega⟩
    have hA : 0 < f * (1 - f) * (1 - f) :=
      mul_pos (mul_pos hpos (by linarith)) (by linarith)
    have hB : 0 < f * f * (1 - f) := mul_pos (mul_pos hpos hpos) (by linarith)
    rw [if_pos c3]
    by_cases ha : 1 ≤ ⌊x⌋
    · rw [if_pos ha]
      by_cases hb : ⌊x⌋ + 2 < n
      · rw [if_pos hb]
        have e : -f + 2 * f * f - f * f * f + (1 - 2 * f * f + f * f * f) +
            (f + f * f - f * f * f) + (-(f * f) + f * f * f) = 1 := by ring
        rw [e]
        exact ⟨le_refl _, fun _ => Or.inr ⟨ha, hb⟩, fun _ => rfl⟩
      · rw [if_neg hb]
        have e : -f + 2 * f * f - f * f * f + (1 - 2 * f * f + f * f * f) +
            (f + f * f - f * f * f) + 0 = 1 + f * f * (1 - f) := by ring
        rw [e]
        refine ⟨by linarith, ?_⟩
        constructor
        · intro h; linarith
        · rintro (h | h)
          · exact absurd h hnot
          · exact absurd h.2 hb
    · rw [if_neg ha]
      by_cases hb : ⌊x⌋ + 2 < n
      · rw [if_pos hb]
        have e : 0 + (1 - 2 * f * f + f * f * f) +
            (f + f * f - f * f * f) + (-(f * f) + f * f * f) = 1 + f * (1 - f) * (1 - f) := by
          ring
        rw [e]
        refine ⟨by linarith, ?_⟩
        constructor
        · intro h; linarith
        · rintro (h | h)
          · exact absurd h hnot
          · exact absurd h.1 ha
      · rw [if_neg hb]
        have e : 0 + (1 - 2 * f * f + f * f * f) +
            (f + f * f - f * f * f) + 0 = 1 + (f * (1 - f) * (1 - f) + f * f * (1 - f)) := by
          ring
        rw [e]
        refine ⟨by linarith, ?_⟩
        constructor
        · intro h; linarith
        · rintro (h | h)
          · exact absurd h hnot
          · exact absurd h.1 ha

/-- Inside the axis the kept weight has a closed form in the fractional offset:
one, plus the weight of the left neighbour when it is cut off, plus the weight
of the far right neighbour when it is cut off. -/
theorem axisWeight_closed_form (x : K) (n : ℤ) (h0 : 0 ≤ x) (h1 : x ≤ (n : K) - 1) :
    axisWeight x n =
      1 + (if 1 ≤ x then 0 else Int.fract x * (1 - Int.fract x) ^ 2) +
        (if x < (n : K) - 2 then 0 else Int.fract x ^ 2 * (1 - Int.fract x)) := by
  have hf0 : 0 ≤ Int.fract x := Int.fract_nonneg x
  have hf1 : Int.fract x < 1 := Int.fract_lt_one x
  have hfx : x = (⌊x⌋ : K) + Int.fract x := (Int.floor_add_fract x).symm
  have hx0 : 0 ≤ ⌊x⌋ := Int.floor_nonneg.mpr h0
  have hxn : ⌊x⌋ < n := by
    have h : (⌊x⌋ : K) ≤ ((n - 1 : ℤ) : K) := by
      push_cast
      exact le_trans (Int.floor_le x) h1
    have := Int.cast_le.mp h
    omega
  have hone : (1 ≤ x) ↔ 1 ≤ ⌊x⌋ := by
    rw [Int.le_floor]; simp
  have htwo : (x < (n : K) - 2) ↔ ⌊x⌋ + 2 < n := by
    have : ⌊x⌋ < n - 2 ↔ x < ((n - 2 : ℤ) : K) := Int.floor_lt
    push_cast at this
    rw [← this]
    omega
  have c1 : (0 ≤ ⌊x⌋ - 1 ∧ ⌊x⌋ - 1 < n) ↔ 1 ≤ ⌊x⌋ :=
    ⟨fun h => by omega, fun h => ⟨by omega, by omega⟩⟩
  have c2 : 0 ≤ ⌊x⌋ ∧ ⌊x⌋ < n := ⟨hx0, hxn⟩
  have c4 : (0 ≤ ⌊x⌋ + 2 ∧ ⌊x⌋ + 2 < n) ↔ ⌊x⌋ + 2 < n :=
    ⟨fun h => h.2, fun h => ⟨by omega, h⟩⟩
  rw [axisWeight_eq, if_pos c2, cubic_coeff_gpu_frac_add_one _ hf0 hf1,
    cubic_coeff_gpu_frac _ hf0 hf1, cubic_coeff_gpu_frac_sub_one _ hf0 hf1,
    cubic_coeff_gpu_frac_sub_two _ hf0 hf1]
  simp only [c1, c4, hone, htwo]
  generalize Int.fract x = f at hf0 hf1 hfx
  rcases eq_or_lt_of_le hf0 with hz | hpos
  · subst hz
    norm_num
  · have c3 : 0 ≤ ⌊x⌋ + 1 ∧ ⌊x⌋ + 1 < n := by
      have h : (⌊x⌋ : K) < ((n - 1 : ℤ) : K) := by
        push_cast
        linarith
      have := Int.cast_lt.mp h
      exact ⟨by omega, by omega⟩
    rw [if_pos c3]
    by_cases ha : 1 ≤ ⌊x⌋ <;> by_cases hb : ⌊x⌋ + 2 < n <;>
      simp only [ha, hb, if_true, if_false] <;> ring

end SampleLemmas

section KernelClaims

variable {K : Type*} [LinearOrderedField K]

/-- C1 (as amended): for every `t` with `|t| < 1` the kernel returns
`1 - 2 t² + |t|³`, the cube being taken of `|t|`; this agrees with the
polynomial `1 - 2 t² + t³` in `t` itself exactly when `0 ≤ t`. -/
theorem cubic_coeff_gpu_inner_branch (t : K) (h : |t| < 1) :
    cubic_coeff_gpu t = 1 - 2 * t ^ 2 + |t| ^ 3 ∧
      (cubic_coeff_gpu t = 1 - 2 * t ^ 2 + t ^ 3 ↔ 0 ≤ t) := by
  have hc : cubic_coeff_gpu t = 1 - 2 * t ^ 2 + |t| ^ 3 := by
    rw [cubic_coeff_gpu_inner t h, ← sq_abs t]
    ring
  refine ⟨hc, ?_⟩
  rw [hc]
  constructor
  · intro heq
    by_contra hneg
    have hlt : t < 0 := not_le.mp hneg
    have habs : |t| = -t := abs_of_neg hlt
    rw [habs] at heq
    have h3 : t ^ 3 = 0 := by
      have : (-t) ^ 3 = t ^ 3 := by linarith
      have e : (-t) ^ 3 = -(t ^ 3) := by ring
      linarith
    exact (ne_of_lt hlt) (pow_eq_zero_iff (by norm_num) |>.mp h3)
  · intro h0
    rw [abs_of_nonneg h0]

/-- C1, the claim as written fails at `t = -1/2`: there `|t| < 1`, the kernel
returns `5/8`, and `1 - 2 t² + t³` is `3/8`. -/
theorem cubic_coeff_gpu_inner_branch_counterexample :
    |(-1 / 2 : ℚ)| < 1 ∧ cubic_coeff_gpu (-1 / 2 : ℚ) = 5 / 8 ∧
      cubic_coeff_gpu (-1 / 2 : ℚ) ≠ 1 - 2 * (-1 / 2 : ℚ) ^ 2 + (-1 / 2 : ℚ) ^ 3 := by
  have habs : |(-1 / 2 : ℚ)| = 1 / 2 := by rw [abs_of_neg (by norm_num)]; norm_num
  have hlt : |(-1 / 2 : ℚ)| < 1 := by rw [habs]; norm_num
  have hval : cubic_coeff_gpu (-1 / 2 : ℚ) = 5 / 8 := by
    rw [cubic_coeff_gpu_inner _ hlt, habs]; norm_num
  refine ⟨hlt, hval, ?_⟩
  rw [hval]
  norm_num

/-- Witness for C1 (as amended) at `t = -1/2`. -/
theorem cubic_coeff_gpu_inner_branch_witness :
    |(-1 / 2 : ℚ)| < 1 ∧
      (cubic_coeff_gpu (-1 / 2 : ℚ) = 1 - 2 * (-1 / 2 : ℚ) ^ 2 + |(-1 / 2 : ℚ)| ^ 3 ∧
        (cubic_coeff_gpu (-1 / 2 : ℚ) = 1 - 2 * (-1 / 2 : ℚ) ^ 2 + (-1 / 2 : ℚ) ^ 3 ↔
          0 ≤ (-1 / 2 : ℚ))) :=
  have hlt : |(-1 / 2 : ℚ)| < 1 := by rw [abs_of_neg (by norm_num)]; norm_num
  ⟨hlt, cubic_coeff_gpu_inner_branch (-1 / 2 : ℚ) hlt⟩

/-- C2: for every `t` with `1 ≤ |t| < 2` the kernel returns
`4 - 8 |t| + 5 t² - |t|³`. -/
theorem cubic_coeff_gpu_outer_branch (t : K) (h1 : 1 ≤ |t|) (h2 : |t| < 2) :
    cubic_coeff_gpu t = 4 - 8 * |t| + 5 * t ^ 2 - |t| ^ 3 := by
  rw [cubic_coeff_gpu_outer t h1 h2, ← sq_abs t]
  ring

/-- Witness for C2 at `t = -3/2`, where the kernel returns `-1/8`. -/
theorem cubic_coeff_gpu_outer_branch_witness :
    (1 ≤ |(-3 / 2 : ℚ)| ∧ |(-3 / 2 : ℚ)| < 2) ∧
      cubic_coeff_gpu (-3 / 2 : ℚ) =
        4 - 8 * |(-3 / 2 : ℚ)| + 5 * (-3 / 2 : ℚ) ^ 2 - |(-3 / 2 : ℚ)| ^ 3 :=
  have habs : |(-3 / 2 : ℚ)| = 3 / 2 := by rw [abs_of_neg (by norm_num)]; norm_num
  have h1 : 1 ≤ |(-3 / 2 : ℚ)| := by rw [habs]; norm_num
  have h2 : |(-3 / 2 : ℚ)| < 2 := by rw [habs]; norm_num
  ⟨⟨h1, h2⟩, cubic_coeff_gpu_outer_branch (-3 / 2 : ℚ) h1 h2⟩

/-- C3: for every `t` with `|t| ≥ 2` the kernel returns exactly `0`. -/
theorem cubic_coeff_gpu_vanishes (t : K) (h : 2 ≤ |t|) : cubic_coeff_gpu t = 0 :=
  cubic_coeff_gpu_far t h

/-- Witness for C3 at `t = -2`, the edge of the support. -/
theorem cubic_coeff_gpu_vanishes_witness :
    2 ≤ |(-2 : ℚ)| ∧ cubic_coeff_gpu (-2 : ℚ) = 0 :=
  have h : 2 ≤ |(-2 : ℚ)| := by rw [abs_of_neg (by norm_num)]; norm_num
  ⟨h, cubic_coeff_gpu_vanishes (-2 : ℚ) h⟩

/-- C10: the kernel is even. -/
theorem cubic_coeff_gpu_even (x : K) : cubic_coeff_gpu (-x) = cubic_coeff_gpu x := by
  rw [cubic_coeff_gpu_abs, cubic_coeff_gpu_abs x, abs_neg]

/-- C4: partition of unity over the whole 4 x 4 neighbourhood.  For fractional
offsets `0 ≤ fx < 1` and `0 ≤ fy < 1` the sixteen products
`cubic_coeff_gpu (fx - i) * cubic_coeff_gpu (fy - j)`, `i, j ∈ {-1, 0, 1, 2}`,
sum to `1`, and so do the four one-dimensional coefficients. -/
theorem bicubic_partition_of_unity (fx fy : K) (hx0 : 0 ≤ fx) (hx1 : fx < 1)
    (hy0 : 0 ≤ fy) (hy1 : fy < 1) :
    (∑ i in ({-1, 0, 1, 2} : Finset ℤ), ∑ j in ({-1, 0, 1, 2} : Finset ℤ),
        cubic_coeff_gpu (fx - (i : K)) * cubic_coeff_gpu (fy - (j : K))) = 1 ∧
      cubic_coeff_gpu (fx + 1) + cubic_coeff_gpu fx + cubic_coeff_gpu (fx - 1) +
        cubic_coeff_gpu (fx - 2) = 1 := by
  refine ⟨?_, cubic_coeff_gpu_four_sum fx hx0 hx1⟩
  rw [← Finset.sum_mul_sum, cubic_coeff_gpu_offset_sum fx hx0 hx1,
    cubic_coeff_gpu_offset_sum fy hy0 hy1, mul_one]

/-- Witness for C4 at the offsets `fx = 1/2`, `fy = 1/4`. -/
theorem bicubic_partition_of_unity_witness :
    ((0 : ℚ) ≤ 1 / 2 ∧ (1 / 2 : ℚ) < 1 ∧ (0 : ℚ) ≤ 1 / 4 ∧ (1 / 4 : ℚ) < 1) ∧
      ((∑ i in ({-1, 0, 1, 2} : Finset ℤ), ∑ j in ({-1, 0, 1, 2} : Finset ℤ),
          cubic_coeff_gpu ((1 / 2 : ℚ) - (i : ℚ)) * cubic_coeff_gpu ((1 / 4 : ℚ) - (j : ℚ))) = 1 ∧
        cubic_coeff_gpu ((1 / 2 : ℚ) + 1) + cubic_coeff_gpu (1 / 2 : ℚ) +
          cubic_coeff_gpu ((1 / 2 : ℚ) - 1) + cubic_coeff_gpu ((1 / 2 : ℚ) - 2) = 1) :=
  ⟨⟨by norm_num, by norm_num, by norm_num, by norm_num⟩,
    bicubic_partition_of_unity (1 / 2 : ℚ) (1 / 4 : ℚ) (by norm_num) (by norm_num)
      (by norm_num) (by norm_num)⟩

/-- C8: the kernel is interpolating.  It is `1` at `0` and `0` at every other
integer, so at a sample location with integer coordinates `(x, y)` the bicubic
weight of the integer cell `(i, j)` is `1` when `(i, j) = (x, y)` and `0`
otherwise. -/
theorem cubic_coeff_gpu_interpolating :
    cubic_coeff_gpu (0 : K) = 1 ∧
      (∀ n : ℤ, n ≠ 0 → cubic_coeff_gpu (n : K) = 0) ∧
      (∀ x y i j : ℤ,
        cubic_coeff_gpu ((x : K) - (i : K)) * cubic_coeff_gpu ((y : K) - (j : K)) =
          if i = x ∧ j = y then 1 else 0) := by
  refine ⟨cubic_coeff_gpu_zero, fun n hn => cubic_coeff_gpu_int n hn, ?_⟩
  intro x y i j
  have key : ∀ a b : ℤ, cubic_coeff_gpu ((a : K) - (b : K)) = if b = a then 1 else 0 := by
    intro a b
    split_ifs with h
    · subst h
      rw [sub_self, cubic_coeff_gpu_zero]
    · have hne : a - b ≠ 0 := fun h0 => h (by omega)
      have := cubic_coeff_gpu_int (K := K) (a - b) hne
      rwa [Int.cast_sub] at this
  rw [key x i, key y j]
  by_cases hi : i = x <;> by_cases hj : j = y <;> simp [hi, hj]

/-- C9: sign and range of the kernel.  Every value lies in `[-4/27, 1]`; the
kernel is non-negative on `|x| ≤ 1` and strictly negative on `1 < |x| < 2`; the
lower bound is attained wherever `|x| = 4/3` and the upper bound at `x = 0`. -/
theorem cubic_coeff_gpu_range :
    (∀ x : K, -4 / 27 ≤ cubic_coeff_gpu x ∧ cubic_coeff_gpu x ≤ 1) ∧
      (∀ x : K, |x| ≤ 1 → 0 ≤ cubic_coeff_gpu x) ∧
      (∀ x : K, 1 < |x| → |x| < 2 → cubic_coeff_gpu x < 0) ∧
      (∀ x : K, |x| = 4 / 3 → cubic_coeff_gpu x = -4 / 27) ∧
      cubic_coeff_gpu (0 : K) = 1 := by
  refine ⟨?_, ?_, ?_, ?_, cubic_coeff_gpu_zero⟩
  · intro x
    rcases lt_or_le |x| 1 with h1 | h1
    · rw [cubic_coeff_gpu_inner x h1]
      have := inner_poly_range |x| (abs_nonneg x) h1.le
      exact ⟨by linarith [this.1], this.2⟩
    · rcases lt_or_le |x| 2 with h2 | h2
      · rw [cubic_coeff_gpu_outer x h1 h2]
        have := outer_poly_range |x| h1 h2.le
        exact ⟨this.1, by linarith [this.2.1]⟩
      · rw [cubic_coeff_gpu_far x h2]
        constructor <;> norm_num
  · intro x hx
    rcases eq_or_lt_of_le hx with h | h
    · rw [cubic_coeff_gpu_outer x (by rw [h]) (by rw [h]; norm_num), h]
      norm_num
    · rw [cubic_coeff_gpu_inner x h]
      exact (inner_poly_range |x| (abs_nonneg x) hx).1
  · intro x h1 h2
    rw [cubic_coeff_gpu_outer x h1.le h2]
    exact (outer_poly_range |x| h1.le h2.le).2.2 h1 h2
  · intro x hx
    rw [cubic_coeff_gpu_outer x (by rw [hx]; norm_num) (by rw [hx]; norm_num), hx]
    norm_num

/-- C6: the 4 x 4 neighbourhood holds every cell with a non-zero bicubic
weight.  If `cubic_coeff_gpu (x - i)` is non-zero for an integer `i` then
`floor x - 1 ≤ i ≤ floor x + 2`; hence the integer pairs `(i, j)` with
`cubic_coeff_gpu (x - i) * cubic_coeff_gpu (y - j)` non-zero form a finite set
of at most 16 elements. -/
theorem bicubic_support_in_neighbourhood [FloorRing K] :
    (∀ (x : K) (i : ℤ), cubic_coeff_gpu (x - (i : K)) ≠ 0 →
        ⌊x⌋ - 1 ≤ i ∧ i ≤ ⌊x⌋ + 2) ∧
      (∀ x y : K,
        {p : ℤ × ℤ |
            cubic_coeff_gpu (x - (p.1 : K)) * cubic_coeff_gpu (y - (p.2 : K)) ≠ 0}.Finite ∧
          Set.ncard {p : ℤ × ℤ |
            cubic_coeff_gpu (x - (p.1 : K)) * cubic_coeff_gpu (y - (p.2 : K)) ≠ 0} ≤ 16) := by
  refine ⟨fun x i h => cubic_coeff_gpu_support x i h, ?_⟩
  intro x y
  have hsub : {p : ℤ × ℤ |
      cubic_coeff_gpu (x - (p.1 : K)) * cubic_coeff_gpu (y - (p.2 : K)) ≠ 0} ⊆
      ((Finset.Icc (⌊x⌋ - 1) (⌊x⌋ + 2) ×ˢ Finset.Icc (⌊y⌋ - 1) (⌊y⌋ + 2) :
        Finset (ℤ × ℤ)) : Set (ℤ × ℤ)) := by
    intro p hp
    have hp1 : cubic_coeff_gpu (x - (p.1 : K)) ≠ 0 := left_ne_zero_of_mul hp
    have hp2 : cubic_coeff_gpu (y - (p.2 : K)) ≠ 0 := right_ne_zero_of_mul hp
    have h1 := cubic_coeff_gpu_support x p.1 hp1
    have h2 := cubic_coeff_gpu_support y p.2 hp2
    simp only [Finset.coe_product, Finset.coe_Icc, Set.mem_prod, Set.mem_Icc]
    exact ⟨h1, h2⟩
  have hcard : (Finset.Icc (⌊x⌋ - 1) (⌊x⌋ + 2) ×ˢ Finset.Icc (⌊y⌋ - 1) (⌊y⌋ + 2) :
      Finset (ℤ × ℤ)).card = 16 := by
    rw [Finset.card_product, Int.card_Icc, Int.card_Icc]
    have e1 : ⌊x⌋ + 2 + 1 - (⌊x⌋ - 1) = 4 := by ring
    have e2 : ⌊y⌋ + 2 + 1 - (⌊y⌋ - 1) = 4 := by ring
    rw [e1, e2]
    rfl
  refine ⟨(Finset.finite_toSet _).subset hsub, ?_⟩
  calc Set.ncard {p : ℤ × ℤ |
          cubic_coeff_gpu (x - (p.1 : K)) * cubic_coeff_gpu (y - (p.2 : K)) ≠ 0}
      ≤ Set.ncard ((Finset.Icc (⌊x⌋ - 1) (⌊x⌋ + 2) ×ˢ Finset.Icc (⌊y⌋ - 1) (⌊y⌋ + 2) :
          Finset (ℤ × ℤ)) : Set (ℤ × ℤ)) :=
        Set.ncard_le_ncard hsub (Finset.finite_toSet _)
    _ = 16 := by rw [Set.ncard_coe_Finset, hcard]

end KernelClaims

section SampleClaims

variable {K : Type*} [LinearOrderedField K] [FloorRing K]

/-- C5 (as amended): constant reproduction by the bicubic sample.  On an
`H x W` plane filled with the constant `k`, at a sample location with
`0 ≤ x ≤ W - 1` and `0 ≤ y ≤ H - 1` (so `H, W ≥ 1`), the sample is
`k * (sx * sy)`, where along the `x` axis, with `fx = x - floor x`,
`sx = 1 + [x < 1] fx (1 - fx)² + [x ≥ W - 2] fx² (1 - fx)`, and `sy` is the
same expression in `y` and `H`.  Hence the sample equals `k` exactly when
`k = 0` or, along each axis, the coordinate is an integer or has all four
neighbours inside the grid (`1 ≤ x < W - 2`, resp. `1 ≤ y < H - 2`); at every
other location in range the factor `sx * sy` is strictly greater than `1`. -/
theorem ResampleCubic_constant_plane (x y k : K) (pdfValue : ℤ → K) (W H : ℤ)
    (hconst : ∀ j i : ℤ, 0 ≤ j → j < H → 0 ≤ i → i < W → pdfValue (j * W + i) = k)
    (hx0 : 0 ≤ x) (hx1 : x ≤ (W : K) - 1) (hy0 : 0 ≤ y) (hy1 : y ≤ (H : K) - 1) :
    ∃ sx sy : K,
      sx = 1 + (if 1 ≤ x then 0 else Int.fract x * (1 - Int.fract x) ^ 2) +
          (if x < (W : K) - 2 then 0 else Int.fract x ^ 2 * (1 - Int.fract x)) ∧
        sy = 1 + (if 1 ≤ y then 0 else Int.fract y * (1 - Int.fract y) ^ 2) +
          (if y < (H : K) - 2 then 0 else Int.fract y ^ 2 * (1 - Int.fract y)) ∧
        ResampleCubic x y pdfValue W H = k * (sx * sy) ∧
        (ResampleCubic x y pdfValue W H = k ↔
          k = 0 ∨ ((x = (⌊x⌋ : K) ∨ (1 ≤ x ∧ x < (W : K) - 2)) ∧
            (y = (⌊y⌋ : K) ∨ (1 ≤ y ∧ y < (H : K) - 2)))) ∧
        (¬ ((x = (⌊x⌋ : K) ∨ (1 ≤ x ∧ x < (W : K) - 2)) ∧
            (y = (⌊y⌋ : K) ∨ (1 ≤ y ∧ y < (H : K) - 2))) → 1 < sx * sy) := by
  obtain ⟨hsx, hex⟩ := axisWeight_in_range x W hx0 hx1
  obtain ⟨hsy, hey⟩ := axisWeight_in_range y H hy0 hy1
  unfold fullWeight at hex hey
  have hval := ResampleCubic_const x y k pdfValue W H hconst
  have hnn : 0 ≤ (axisWeight x W - 1) * (axisWeight y H - 1) :=
    mul_nonneg (by linarith) (by linarith)
  refine ⟨axisWeight x W, axisWeight y H, axisWeight_closed_form x W hx0 hx1,
    axisWeight_closed_form y H hy0 hy1, hval, ?_, ?_⟩
  · rw [hval, ← hex, ← hey]
    constructor
    · intro h
      by_cases hk : k = 0
      · exact Or.inl hk
      · right
        have hprod : axisWeight x W * axisWeight y H = 1 := by
          have h2 : k * (axisWeight x W * axisWeight y H) = k * 1 := by rw [h, mul_one]
          exact mul_left_cancel₀ hk h2
        constructor
        · nlinarith
        · nlinarith
    · rintro (hk | ⟨h1, h2⟩)
      · rw [hk, zero_mul]
      · rw [h1, h2, mul_one, mul_one]
  · intro hng
    rw [← hex, ← hey] at hng
    by_cases hgx : axisWeight x W = 1
    · have hgy : axisWeight y H ≠ 1 := fun h => hng ⟨hgx, h⟩
      have : 1 < axisWeight y H := lt_of_le_of_ne hsy (Ne.symm hgy)
      nlinarith
    · have : 1 < axisWeight x W := lt_of_le_of_ne hsx (Ne.symm hgx)
      nlinarith

/-- C5, the claim as written fails on the 2 x 2 plane of ones at the sample
location `(1/2, 1/2)`: the location is in range, the neighbours `-1` and `2`
are excluded on both axes, and the sample is `25/16`, not `1`. -/
theorem ResampleCubic_constant_plane_counterexample :
    ((1 : ℤ) ≤ 2 ∧ (0 : ℚ) ≤ 1 / 2 ∧ (1 / 2 : ℚ) ≤ ((2 : ℤ) : ℚ) - 1) ∧
      ResampleCubic (1 / 2 : ℚ) (1 / 2 : ℚ) (fun _ => 1) 2 2 = 25 / 16 ∧
      ResampleCubic (1 / 2 : ℚ) (1 / 2 : ℚ) (fun _ => 1) 2 2 ≠ 1 := by
  have hfl : ⌊(1 / 2 : ℚ)⌋ = 0 := by
    rw [Int.floor_eq_iff]
    norm_num
  have hval : ResampleCubic (1 / 2 : ℚ) (1 / 2 : ℚ) (fun _ => 1) 2 2 = 25 / 16 := by
    norm_num [ResampleCubic, neighbours, hfl, cubic_coeff_gpu]
  refine ⟨⟨by norm_num, by norm_num, by norm_num⟩, hval, ?_⟩
  rw [hval]
  norm_num

/-- Witness for C5 (as amended): on the 4 x 4 plane of sevens, at the sample
location `(3/2, 3)` (four neighbours inside along `x`, an integer on the upper
border along `y`), the sample is `7`; on the 2 x 2 plane of ones, at the sample
location `(1/2, 1/2)`, the sample is `1 * (5/4 * 5/4)`. -/
theorem ResampleCubic_constant_plane_witness :
    ((0 : ℚ) ≤ 3 / 2 ∧ (3 / 2 : ℚ) ≤ ((4 : ℤ) : ℚ) - 1 ∧ (0 : ℚ) ≤ 3 ∧
        (3 : ℚ) ≤ ((4 : ℤ) : ℚ) - 1) ∧
      ResampleCubic (3 / 2 : ℚ) (3 : ℚ) (fun _ => 7) 4 4 = 7 ∧
      ((0 : ℚ) ≤ 1 / 2 ∧ (1 / 2 : ℚ) ≤ ((2 : ℤ) : ℚ) - 1) ∧
      ResampleCubic (1 / 2 : ℚ) (1 / 2 : ℚ) (fun _ => 1) 2 2 = 1 * (5 / 4 * (5 / 4)) := by
  refine ⟨⟨by norm_num, by norm_num, by norm_num, by norm_num⟩, ?_,
    ⟨by norm_num, by norm_num⟩, ?_⟩
  · obtain ⟨sx, sy, -, -, -, hiff, -⟩ :=
      ResampleCubic_constant_plane (3 / 2 : ℚ) (3 : ℚ) 7 (fun _ => 7) 4 4
        (fun _ _ _ _ _ _ => rfl) (by norm_num) (by norm_num) (by norm_num) (by norm_num)
    exact hiff.mpr (Or.inr ⟨Or.inr ⟨by norm_num, by norm_num⟩, Or.inl (by simp)⟩)
  · obtain ⟨sx, sy, hsx, hsy, hval, -, -⟩ :=
      ResampleCubic_constant_plane (1 / 2 : ℚ) (1 / 2 : ℚ) 1 (fun _ => 1) 2 2
        (fun _ _ _ _ _ _ => rfl) (by norm_num) (by norm_num) (by norm_num) (by norm_num)
    have hfr : Int.fract (1 / 2 : ℚ) = 1 / 2 := by
      rw [Int.fract_eq_iff]
      exact ⟨by norm_num, by norm_num, 0, by norm_num⟩
    have ex : sx = 5 / 4 := by rw [hsx, hfr]; norm_num
    have ey : sy = 5 / 4 := by rw [hsy, hfr]; norm_num
    rw [hval, ex, ey]

end SampleClaims

section BlobClaims

/-- C7: the layer takes exactly two inputs and produces exactly one output.
The four getters return `2, 2, 1, 1`, so a number of bottom blobs is admissible
exactly when it is `2`, and a number of top blobs exactly when it is `1`. -/
theorem blob_counts_exact :
    (MinBottomBlobs = 2 ∧ MaxBottomBlobs = 2 ∧ MinTopBlobs = 1 ∧ MaxTopBlobs = 1) ∧
      (∀ n : ℕ, admissibleBottomCount n = true ↔ n = 2) ∧
      (∀ n : ℕ, admissibleTopCount n = true ↔ n = 1) := by
  refine ⟨⟨rfl, rfl, rfl, rfl⟩, ?_, ?_⟩
  · intro n
    simp only [admissibleBottomCount, MinBottomBlobs, MaxBottomBlobs, Bool.and_eq_true,
      decide_eq_true_eq]
    omega
  · intro n
    simp only [admissibleTopCount, MinTopBlobs, MaxTopBlobs, Bool.and_eq_true,
      decide_eq_true_eq]
    omega

end BlobClaims

end caffe
